import Mathlib

/-!
Verification of the checkpoint diff-and-archive engine of `nas-backup-utils`
(src/main.rs, src/backup_utils.rs, src/zip_handler.rs), as a shallow
embedding in Lean 4.  Pure data and control flow are translated from the
Rust source; filesystem and archive I/O are modelled as explicit state
(lists of named files) or injected step outcomes.  The crate's `config`
module is not part of the sources; where one of its constants matters it is
modelled from the spec and noted at the definition.
-/

set_option linter.unusedVariables false

/-! ## Decimal rendering and parsing (model of Rust `Display`/`str::parse`) -/

/-- Numeric value of a decimal digit character, as computed by the parser
model (`c as u32 - '0' as u32`). -/
def digitVal (c : Char) : Nat := c.toNat - 48

/-- Fuel-based rendering of a natural number in decimal, most significant
digit first; models Rust's `Display` for unsigned integers.  The fuel is
structural so that evaluation reduces in the kernel. -/
def natToDecAux : Nat → Nat → List Char → List Char
  | 0, _, acc => acc
  | fuel + 1, n, acc =>
    let acc' := Nat.digitChar (n % 10) :: acc
    if n / 10 = 0 then acc' else natToDecAux fuel (n / 10) acc'

/-- Decimal rendering of a natural number (model of Rust `format!("{}", n)`
for `u64`). -/
def natToDec (n : Nat) : List Char := natToDecAux (n + 1) n []

/-- Decimal rendering of an integer (model of Rust `format!("{}", i)` for
`i64`). -/
def intToDec (i : Int) : List Char :=
  if i < 0 then '-' :: natToDec (-i).toNat else natToDec i.toNat

/-- Parse an unsigned decimal digit string: nonempty, all digits. -/
def parseDigits (l : List Char) : Option Nat :=
  if l.isEmpty then none
  else if l.all (fun c => c.isDigit) then
    some (l.foldl (fun a c => a * 10 + digitVal c) 0)
  else none

/-- Model of Rust `str::parse::<u64>`: an optional `+` sign, then decimal
digits, value below `2^64`. -/
def parseU64 (l : List Char) : Option Nat :=
  (parseDigits (bif l.head? == some '+' then l.tail else l)).bind
    (fun n => if n < 2 ^ 64 then some n else none)

/-- Model of Rust `str::parse::<i64>`: an optional sign, then decimal
digits, value in the `i64` range. -/
def parseI64 (l : List Char) : Option Int :=
  bif l.head? == some '-' then
    (parseDigits l.tail).bind (fun n => if n ≤ 2 ^ 63 then some (-(n : Int)) else none)
  else bif l.head? == some '+' then
    (parseDigits l.tail).bind (fun n => if n < 2 ^ 63 then some ((n : Int)) else none)
  else
    (parseDigits l).bind (fun n => if n < 2 ^ 63 then some ((n : Int)) else none)

/-- Modelled from the chrono library (an external collaborator): the range
of epoch-second values accepted by `DateTime::from_timestamp(ts, 0)`. -/
def tsValid (ts : Int) : Bool := -8334601228800 ≤ ts && ts ≤ 8210266876799

/-! ## Line splitting (model of Rust `str::lines`) -/

/-- Split a character list at every newline, like `str::split('\n')`. -/
def splitNL : List Char → List (List Char)
  | [] => [[]]
  | c :: rest =>
    if c = '\n' then [] :: splitNL rest
    else
      match splitNL rest with
      | [] => [[c]]
      | l :: ls => (c :: l) :: ls

/-- Drop a single trailing carriage return, as `str::lines` does per line. -/
def stripCR (l : List Char) : List Char :=
  bif l.getLast? == some '\r' then l.dropLast else l

/-- Model of Rust `str::lines`: split on `'\n'`, drop the trailing empty
piece produced by a final newline, strip one trailing `'\r'` per line. -/
def rustLines (cs : List Char) : List (List Char) :=
  let parts := splitNL cs
  (bif parts.getLast? == some ([] : List Char) then parts.dropLast else parts).map stripCR

/-! ## Change Record (src/backup_utils.rs, `struct FileInfo`) -/

/-- The per-file Change Record: `size: u64`, `hash: String`,
`time_stamp: DateTime<Utc>` kept at second precision (modelled as epoch
seconds). -/
structure FileInfo where
  size : Nat
  hash : String
  time_stamp : Int
deriving DecidableEq, Repr

/-- The `PartialEq` impl for `FileInfo` (src/backup_utils.rs:16-20):
`self.size == other.size && self.hash == other.hash`. -/
def fileInfoEq (a b : FileInfo) : Bool :=
  a.size == b.size && a.hash == b.hash

/-- `FileInfo::write_to_file` (src/backup_utils.rs:38-47): the bytes
`writeln!(file, "{}\n{}\n{}", size, hash, time_stamp.timestamp())` leaves
in the sidecar file. -/
def serializeChars (r : FileInfo) : List Char :=
  natToDec r.size ++ '\n' :: (r.hash.data ++ '\n' :: (intToDec r.time_stamp ++ ['\n']))

/-- `FileInfo::read_from_meta` (src/backup_utils.rs:49-83): read the whole
contents, take the first three lines, parse size as `u64`, take the second
line verbatim as the hash, parse the third as an `i64` accepted by
`chrono::DateTime::from_timestamp`. -/
def read_from_meta (contents : List Char) : Except String FileInfo :=
  let ls := rustLines contents
  match ls.get? 0 with
  | none => .error "Missing size"
  | some sizeLine =>
    match parseU64 sizeLine with
    | none => .error "Invalid size"
    | some size =>
      match ls.get? 1 with
      | none => .error "Missing hash"
      | some hashLine =>
        match ls.get? 2 with
        | none => .error "Missing timestamp"
        | some tsLine =>
          match parseI64 tsLine with
          | none => .error "Invalid timestamp"
          | some ts =>
            if tsValid ts then .ok ⟨size, String.mk hashLine, ts⟩
            else .error "Invalid timestamp"

/-- A hash string as produced by `compute_xxhash`
(src/backup_utils.rs:86-101): `format!("{:016x}", hash)`, sixteen lowercase
hexadecimal digits. -/
def isLowerHexDigit (c : Char) : Bool := c.isDigit || ('a' ≤ c && c ≤ 'f')

/-- A valid fixed-width hexadecimal hash string. -/
def validHash (s : String) : Prop :=
  s.data.length = 16 ∧ ∀ c ∈ s.data, isLowerHexDigit c = true

/-! ## Latest-checkpoint pointer (src/main.rs, `read_last_checkpoint`) -/

/-- Model of Rust `str::trim`: drop whitespace from both ends. -/
def rustTrim (s : String) : String :=
  String.mk (((s.data.dropWhile Char.isWhitespace).reverse.dropWhile Char.isWhitespace).reverse)

/-- `read_last_checkpoint` (src/main.rs:17-30).  The filesystem read of the
pointer file is injected as `readResult`; a failed read is
`unwrap_or_default`-ed to the empty string, the content is trimmed, and an
empty result yields `PathBuf::new()` — modelled as `none`, the
"no prior checkpoint" value. -/
def read_last_checkpoint (readResult : Except Unit String) : Except Unit (Option String) :=
  let content := rustTrim (match readResult with | .ok s => s | .error _ => "")
  if content.isEmpty then .ok none else .ok (some content)

/-! ## File-name extension handling (model of Rust `std::path`) -/

/-- Split a character list around its last `'.'`; `none` when there is no
dot.  Model of the split underlying `Path::file_stem`/`Path::extension`. -/
def splitAtLastDot : List Char → Option (List Char × List Char)
  | [] => none
  | c :: rest =>
    match splitAtLastDot rest with
    | some (s, e) => some (c :: s, e)
    | none => if c = '.' then some ([], rest) else none

/-- Model of Rust `Path::extension` on a bare file name: the part after the
last dot, provided the part before it is nonempty. -/
def rustExtension (name : String) : Option String :=
  match splitAtLastDot name.data with
  | some (s, e) => if s.isEmpty then none else some (String.mk e)
  | none => none

/-- Model of Rust `Path::file_stem` on a bare file name. -/
def rustFileStem (name : String) : String :=
  match splitAtLastDot name.data with
  | some (s, e) => if s.isEmpty then name else String.mk s
  | none => name

/-- Model of Rust `Path::with_extension` on a bare file name: the existing
extension is replaced, not appended to. -/
def rustWithExtension (name ext : String) : String :=
  String.mk ((rustFileStem name).data ++ '.' :: ext.data)

/-- The sidecar path computed by `dealing_with_file`
(src/backup_utils.rs:120, `new_checkpoint_dir.with_extension("meta")`) and
by `traverse_backup` (src/backup_utils.rs:178), at file-name granularity. -/
def metaPathOf (name : String) : String := rustWithExtension name "meta"

/-- Does the file name carry the `meta` extension, as tested by
`compress_process` (src/zip_handler.rs:83-89) and `traverse_meta`
(src/backup_utils.rs:200)? -/
def isMetaExt (name : String) : Bool :=
  match rustExtension name with
  | some e => e == "meta"
  | none => false

/-- Suffix test on character lists, model of Rust `str::ends_with`. -/
def listIsSuffix (l suffix : List Char) : Bool :=
  if l == suffix then true
  else
    match l with
    | [] => false
    | _ :: t => listIsSuffix t suffix

/-- `name_str.ends_with(".meta")` as tested by `extract_zip`
(src/zip_handler.rs:51). -/
def endsWithMeta (name : String) : Bool := listIsSuffix name.data ".meta".data

/-! ## Metadata archival subsystem (src/zip_handler.rs) -/

/-- The state of one directory relevant to fold/unfold: its loose files
(name, bytes) in directory order, and the per-directory metadata archive
(`COMPRESS_FILE_NAME`), when present, as its ordered member list.  The
archive file is kept apart from the loose files; per the spec its name does
not carry the metadata extension. -/
structure DirState where
  files : List (String × List Char)
  archive : Option (List (String × List Char))
deriving DecidableEq, Repr

/-- First loose file with the given name (models a filesystem lookup). -/
def findFile (fs : List (String × List Char)) (name : String) : Option (List Char) :=
  (fs.find? (fun p => p.1 == name)).map (fun p => p.2)

/-- Left-biased choice on `Option`. -/
def orO (a b : Option (List Char)) : Option (List Char) :=
  match a with
  | some x => some x
  | none => b

/-- One iteration of the extraction loop in `extract_zip`
(src/zip_handler.rs:46-68): skip a member not ending in `.meta`, skip a
member whose output path already exists, otherwise write the member out. -/
def extractStep (fs : List (String × List Char)) (m : String × List Char) :
    List (String × List Char) :=
  bif !endsWithMeta m.1 then fs
  else bif fs.any (fun p => p.1 == m.1) then fs
  else fs ++ [m]

/-- `extract_zip` (src/zip_handler.rs:35-77): no-op when no archive file is
present; otherwise extract the members in order and, when `delete_zip`,
delete the archive file. -/
def extract_zip (d : DirState) (delete_zip : Bool) : DirState :=
  match d.archive with
  | none => d
  | some ms =>
    { files := ms.foldl extractStep d.files
    , archive := if delete_zip then none else d.archive }

/-- From the spec's words, for comparison with `extract_zip`: among the
archive's members, the first one with the given name that carries the
metadata extension. -/
def specFirstEligible (ms : List (String × List Char)) (name : String) : Option (List Char) :=
  (ms.find? (fun m => m.1 == name && endsWithMeta m.1)).map (fun m => m.2)

/-- `compress_process` (src/zip_handler.rs:80-100) together with
`create_zip` and `delete_meta_files`: collect the loose files with
extension `meta` in directory order; if none, no-op; otherwise write them
into the archive file (overwriting any previous archive) and delete them. -/
def compress_process (d : DirState) : DirState :=
  let metas := d.files.filter (fun p => isMetaExt p.1)
  if metas.isEmpty then d
  else
    { files := d.files.filter (fun p => !isMetaExt p.1)
    , archive := some metas }

/-- One directory visited by `WalkDir::new(root)`: its state, and whether
its path matches a configured ignore pattern.  The ignore flag is modelled
from the spec (the `config` module is not among the sources); the walk is
the list of the root and all descendant directories, in walk order. -/
structure WalkedDir where
  state : DirState
  ignored : Bool
deriving DecidableEq, Repr

/-- `compress_dir` (src/zip_handler.rs:11-21): apply `compress_process` to
every directory yielded by the walk. -/
def compress_dir (walk : List WalkedDir) : List WalkedDir :=
  walk.map (fun d => { d with state := compress_process d.state })

/-- `extract_dir` (src/zip_handler.rs:23-33): apply `extract_zip` with
`delete_zip = true` to every directory yielded by the walk. -/
def extract_dir (walk : List WalkedDir) : List WalkedDir :=
  walk.map (fun d => { d with state := extract_zip d.state true })

/-! ## Tree diff walker, per-file step (src/backup_utils.rs) -/

/-- The effect of `dealing_with_file` (src/backup_utils.rs:103-148) on its
success path.  `last` is the Change Record deserialized from the previous
checkpoint's sidecar when one exists at the corresponding path (`none`
otherwise); `current` is the freshly captured record.  The result records
what was written: the record serialized to the new sidecar path
(unconditional), and whether the file content was copied. -/
structure DealOutcome where
  sidecarRecord : FileInfo
  copied : Bool
deriving DecidableEq, Repr

/-- Pure translation of `dealing_with_file`: the sidecar is always written
with `current`; content is copied unless a previous record exists and
compares equal under `FileInfo`'s `PartialEq`. -/
def dealing_with_file (last : Option FileInfo) (current : FileInfo) : DealOutcome :=
  { sidecarRecord := current
  , copied :=
      match last with
      | some l => if fileInfoEq l current then false else true
      | none => true }

/-- The sequence of sidecar writes `traverse_backup` + `dealing_with_file`
perform for the regular files of one source directory: each file's record
is written with `File::create` to `metaPathOf` of its name, truncating any
file already at that path. -/
def createWrite (files : List (String × FileInfo)) (name : String) (info : FileInfo) :
    List (String × FileInfo) :=
  if files.any (fun p => p.1 == name) then
    files.map (fun p => if p.1 == name then (name, info) else p)
  else files ++ [(name, info)]

/-- The sidecar files present in the new checkpoint directory after the
walk processes the given source files in directory order. -/
def writeSidecars (srcFiles : List (String × FileInfo)) : List (String × FileInfo) :=
  srcFiles.foldl (fun acc p => createWrite acc (metaPathOf p.1) p.2) []

/-! ## Checkpoint chain driver (src/main.rs, `backup`) -/

/-- The environment of one `backup` run: whether the pointer resolves to an
existing prior checkpoint directory, the success of each fallible step, and
the `REMOVE_TEMP_IMMEDIATELY` policy flag (modelled from the spec: the
`config` module is not among the sources). -/
structure RunEnv where
  hasPrior : Bool
  stageOk : Bool
  walkOk : Bool
  compressOk : Bool
  cleanupOk : Bool
  removeTempImmediately : Bool
deriving DecidableEq, Repr

/-- Run one injected step outcome as an `io::Result<()>`. -/
def stepRun (ok : Bool) : Except Unit Unit :=
  if ok then .ok () else .error ()

/-- Control flow of `backup` (src/main.rs:67-119) after the confirmation
prompt: stage the previous checkpoint when one exists (`?`-propagated),
run the walk with its result discarded (`let _ = traverse_backup(...)`),
compress the new checkpoint (`?`), remove the staging copy when the policy
says so (`?`), then write the pointer file and return `Ok`. -/
def backup (e : RunEnv) : Except Unit Unit :=
  Except.bind (if e.hasPrior then stepRun e.stageOk else Except.ok ()) (fun _ =>
    let walkResult := stepRun e.walkOk
    Except.bind (stepRun e.compressOk) (fun _ =>
      Except.bind
        (if e.hasPrior && e.removeTempImmediately then stepRun e.cleanupOk else Except.ok ())
        (fun _ => Except.ok ())))

/-- The pointer file is overwritten exactly when control reaches the final
`fs::write` — i.e. when `backup` returns `Ok`. -/
def pointerWritten (e : RunEnv) : Bool :=
  match backup e with
  | .ok _ => true
  | .error _ => false

/-! ## Helper lemmas: decimal rendering round-trips through parsing -/

theorem digitVal_digitChar (d : Nat) (h : d < 10) : digitVal (Nat.digitChar d) = d := by
  interval_cases d <;> rfl

theorem isDigit_digitChar (d : Nat) (h : d < 10) : (Nat.digitChar d).isDigit = true := by
  interval_cases d <;> rfl

theorem natToDecAux_append (fuel : Nat) :
    ∀ n acc, natToDecAux fuel n acc = natToDecAux fuel n [] ++ acc := by
  induction fuel with
  | zero => intro n acc; rfl
  | succ fuel ih =>
    intro n acc
    show (if n / 10 = 0 then _ else _) = (if n / 10 = 0 then _ else _) ++ acc
    by_cases h : n / 10 = 0
    · simp [h]
    · simp only [if_neg h]
      rw [ih (n / 10) (Nat.digitChar (n % 10) :: acc), ih (n / 10) [Nat.digitChar (n % 10)]]
      simp

theorem natToDecAux_digits (fuel : Nat) :
    ∀ n acc c, c ∈ natToDecAux fuel n acc → c ∈ acc ∨ c.isDigit = true := by
  induction fuel with
  | zero => intro n acc c hc; exact Or.inl hc
  | succ fuel ih =>
    intro n acc c hc
    by_cases h : n / 10 = 0
    · simp only [natToDecAux, h, if_pos] at hc
      rcases List.mem_cons.mp hc with h1 | h1
      · exact Or.inr (h1 ▸ isDigit_digitChar _ (Nat.mod_lt _ (by norm_num)))
      · exact Or.inl h1
    · simp only [natToDecAux, h, if_neg, not_false_iff] at hc
      rcases ih (n / 10) _ c hc with h1 | h1
      · rcases List.mem_cons.mp h1 with h2 | h2
        · exact Or.inr (h2 ▸ isDigit_digitChar _ (Nat.mod_lt _ (by norm_num)))
        · exact Or.inl h2
      · exact Or.inr h1

theorem natToDec_digits (n : Nat) : ∀ c ∈ natToDec n, c.isDigit = true := by
  intro c hc
  rcases natToDecAux_digits (n + 1) n [] c hc with h | h
  · cases h
  · exact h

theorem natToDec_ne_nil (n : Nat) : natToDec n ≠ [] := by
  show (if n / 10 = 0 then _ else _) ≠ []
  by_cases h : n / 10 = 0
  · simp [h]
  · simp only [if_neg h]
    rw [natToDecAux_append]
    simp

theorem natToDecAux_foldl (fuel : Nat) :
    ∀ n a, n < 10 ^ fuel →
      (natToDecAux fuel n []).foldl (fun s c => s * 10 + digitVal c) a
        = a * 10 ^ (natToDecAux fuel n []).length + n := by
  induction fuel with
  | zero =>
    intro n a h
    have hn : n = 0 := by omega
    subst hn; simp [natToDecAux]
  | succ fuel ih =>
    intro n a h
    by_cases h0 : n / 10 = 0
    · have hn : n < 10 := by omega
      show (natToDecAux (fuel + 1) n []).foldl _ _ = _
      simp only [natToDecAux, h0, if_pos]
      simp only [List.foldl_cons, List.foldl_nil, List.length_cons, List.length_nil]
      rw [Nat.mod_eq_of_lt hn, digitVal_digitChar n hn]
      ring
    · have hlt : n / 10 < 10 ^ fuel := by
        rw [Nat.div_lt_iff_lt_mul (by norm_num : (0:Nat) < 10)]
        calc n < 10 ^ (fuel + 1) := h
          _ = 10 ^ fuel * 10 := by ring
      show (natToDecAux (fuel + 1) n []).foldl _ _ = _
      simp only [natToDecAux, h0, if_neg, not_false_iff]
      rw [natToDecAux_append fuel (n / 10) [Nat.digitChar (n % 10)]]
      rw [List.foldl_append]
      rw [ih (n / 10) a hlt]
      simp only [List.foldl_cons, List.foldl_nil, List.length_append, List.length_cons,
        List.length_nil]
      rw [digitVal_digitChar (n % 10) (Nat.mod_lt _ (by norm_num))]
      have : (a * 10 ^ (natToDecAux fuel (n / 10) []).length + n / 10) * 10 + n % 10
          = a * (10 ^ (natToDecAux fuel (n / 10) []).length * 10) + (n / 10 * 10 + n % 10) := by
        ring
      rw [this, Nat.div_add_mod' n 10, pow_succ]

theorem parseDigits_natToDec (n : Nat) : parseDigits (natToDec n) = some n := by
  unfold parseDigits
  rw [if_neg (by simpa using natToDec_ne_nil n)]
  rw [if_pos (List.all_eq_true.mpr (natToDec_digits n))]
  have hfuel : n < 10 ^ (n + 1) :=
    lt_of_lt_of_le (Nat.lt_pow_self (by norm_num) n) (Nat.pow_le_pow_right (by norm_num) (by omega))
  rw [show natToDec n = natToDecAux (n + 1) n [] from rfl,
    natToDecAux_foldl (n + 1) n 0 hfuel]
  simp

theorem natToDec_head_digit (n : Nat) :
    ∃ c t, natToDec n = c :: t ∧ c.isDigit = true := by
  cases hd : natToDec n with
  | nil => exact absurd hd (natToDec_ne_nil n)
  | cons c t =>
    exact ⟨c, t, rfl, natToDec_digits n c (hd ▸ List.mem_cons_self c t)⟩

theorem parseU64_natToDec (n : Nat) (h : n < 2 ^ 64) : parseU64 (natToDec n) = some n := by
  obtain ⟨c, t, hd, hdig⟩ := natToDec_head_digit n
  have hne : (some c == some '+') = false := by
    apply beq_eq_false_iff_ne.mpr
    simp only [ne_eq, Option.some.injEq]
    intro hc; subst hc; simp at hdig
  unfold parseU64
  rw [hd]
  simp only [List.head?_cons, hne, Bool.cond_false]
  rw [← hd, parseDigits_natToDec n]
  simp only [Option.some_bind, if_pos h]

theorem parseI64_intToDec (i : Int) (h1 : -(2 ^ 63) ≤ i) (h2 : i < 2 ^ 63) :
    parseI64 (intToDec i) = some i := by
  by_cases hneg : i < 0
  · have hd : intToDec i = '-' :: natToDec (-i).toNat := if_pos hneg
    have hbound : (-i).toNat ≤ 2 ^ 63 := by omega
    have hcast : ((-i).toNat : Int) = -i := Int.toNat_of_nonneg (by omega)
    unfold parseI64
    rw [hd]
    simp only [List.head?_cons, List.tail_cons]
    rw [show ((some '-' == some '-') = true) from rfl]
    simp only [Bool.cond_true]
    rw [parseDigits_natToDec (-i).toNat]
    simp only [Option.some_bind, if_pos hbound, hcast, neg_neg]
  · push_neg at hneg
    have hd : intToDec i = natToDec i.toNat := if_neg (by omega)
    obtain ⟨c, t, hc, hdig⟩ := natToDec_head_digit i.toNat
    have hminus : (some c == some '-') = false := by
      apply beq_eq_false_iff_ne.mpr
      simp only [ne_eq, Option.some.injEq]
      intro hx; subst hx; simp at hdig
    have hplus : (some c == some '+') = false := by
      apply beq_eq_false_iff_ne.mpr
      simp only [ne_eq, Option.some.injEq]
      intro hx; subst hx; simp at hdig
    have hbound : i.toNat < 2 ^ 63 := by omega
    unfold parseI64
    rw [hd, hc]
    simp only [List.head?_cons, hminus, hplus, Bool.cond_false]
    rw [← hc, parseDigits_natToDec i.toNat]
    simp only [Option.some_bind, if_pos hbound, Int.toNat_of_nonneg hneg]

/-! ## Helper lemmas: line splitting -/

theorem splitNL_ne_nil (cs : List Char) : splitNL cs ≠ [] := by
  cases cs with
  | nil => simp [splitNL]
  | cons c rest =>
    unfold splitNL
    by_cases h : c = '\n'
    · simp [h]
    · simp only [if_neg h]
      cases splitNL rest <;> simp

theorem splitNL_append (a : List Char) (rest : List Char) (h : '\n' ∉ a) :
    splitNL (a ++ '\n' :: rest) = a :: splitNL rest := by
  induction a with
  | nil => simp [splitNL]
  | cons c a' ih =>
    have hc : c ≠ '\n' := by intro hx; exact h (hx ▸ List.mem_cons_self c a')
    have h' : '\n' ∉ a' := fun hx => h (List.mem_cons_of_mem c hx)
    show splitNL (c :: (a' ++ '\n' :: rest)) = (c :: a') :: splitNL rest
    rw [splitNL, if_neg hc, ih h']

theorem stripCR_eq_self (l : List Char) (h : ∀ c ∈ l, c ≠ '\r') : stripCR l = l := by
  unfold stripCR
  cases hl : l.getLast? with
  | none => simp
  | some c =>
    have : c ≠ '\r' := h c (List.mem_of_mem_getLast? hl)
    rw [show ((some c == some '\r') = false) from
      beq_eq_false_iff_ne.mpr (by simpa using this)]
    simp

theorem rustLines_three (s h t : List Char)
    (hs : '\n' ∉ s) (hh : '\n' ∉ h) (ht : '\n' ∉ t)
    (hs' : ∀ c ∈ s, c ≠ '\r') (hh' : ∀ c ∈ h, c ≠ '\r') (ht' : ∀ c ∈ t, c ≠ '\r') :
    rustLines (s ++ '\n' :: (h ++ '\n' :: (t ++ ['\n']))) = [s, h, t] := by
  have hsplit : splitNL (s ++ '\n' :: (h ++ '\n' :: (t ++ ['\n']))) = [s, h, t] ++ [[]] := by
    rw [splitNL_append s _ hs, splitNL_append h _ hh, splitNL_append t _ ht]
    rfl
  simp only [rustLines]
  rw [hsplit, List.getLast?_concat, List.dropLast_concat]
  rw [show ((some ([] : List Char) == some ([] : List Char)) = true) from rfl]
  simp only [Bool.cond_true, List.map_cons, List.map_nil]
  rw [stripCR_eq_self s hs', stripCR_eq_self h hh', stripCR_eq_self t ht']

theorem digit_ne_nl {c : Char} (h : c.isDigit = true) : c ≠ '\n' := by
  intro hx; rw [hx] at h; exact absurd h (by decide)

theorem digit_ne_cr {c : Char} (h : c.isDigit = true) : c ≠ '\r' := by
  intro hx; rw [hx] at h; exact absurd h (by decide)

theorem intToDec_chars (i : Int) : ∀ c ∈ intToDec i, c = '-' ∨ c.isDigit = true := by
  intro c hc
  unfold intToDec at hc
  by_cases hi : i < 0
  · rw [if_pos hi] at hc
    rcases List.mem_cons.mp hc with h1 | h1
    · exact Or.inl h1
    · exact Or.inr (natToDec_digits _ c h1)
  · rw [if_neg hi] at hc
    exact Or.inr (natToDec_digits _ c hc)

theorem hex_ne_nl {c : Char} (h : isLowerHexDigit c = true) : c ≠ '\n' := by
  intro hx; rw [hx] at h; exact absurd h (by decide)

theorem hex_ne_cr {c : Char} (h : isLowerHexDigit c = true) : c ≠ '\r' := by
  intro hx; rw [hx] at h; exact absurd h (by decide)

theorem serializeChars_lines (r : FileInfo) (h2 : validHash r.hash) :
    rustLines (serializeChars r) = [natToDec r.size, r.hash.data, intToDec r.time_stamp] := by
  obtain ⟨hlen, hhex⟩ := h2
  apply rustLines_three
  · intro hm; exact digit_ne_nl (natToDec_digits _ _ hm) rfl
  · intro hm; exact hex_ne_nl (hhex _ hm) rfl
  · intro hm
    rcases intToDec_chars r.time_stamp _ hm with h1 | h1
    · exact absurd h1.symm (by decide)
    · exact digit_ne_nl h1 rfl
  · intro c hc; exact digit_ne_cr (natToDec_digits _ _ hc)
  · intro c hc; exact hex_ne_cr (hhex _ hc)
  · intro c hc
    rcases intToDec_chars r.time_stamp _ hc with h1 | h1
    · intro hx; rw [h1] at hx; exact absurd hx (by decide)
    · exact digit_ne_cr h1

/-- Claim C4: deserializing the serialization of a Change Record with
`u64`-range size, a valid fixed-width lowercase hexadecimal hash and a
timestamp accepted by the chrono range check yields the record back
unchanged: `read_from_meta (write_to_file r) = Ok(r)`. -/
theorem changeRecord_roundtrip (r : FileInfo) (h1 : r.size < 2 ^ 64)
    (h2 : validHash r.hash) (h3 : tsValid r.time_stamp = true) :
    read_from_meta (serializeChars r) = Except.ok r := by
  have hlines := serializeChars_lines r h2
  simp only [read_from_meta, hlines, List.get?_cons_zero, List.get?_cons_succ]
  rw [parseU64_natToDec r.size h1]
  have hrange : -8334601228800 ≤ r.time_stamp ∧ r.time_stamp ≤ 8210266876799 := by
    have := h3
    unfold tsValid at this
    simp only [Bool.and_eq_true, decide_eq_true_eq] at this
    exact this
  rw [parseI64_intToDec r.time_stamp (by omega) (by omega)]
  simp only [h3, if_pos]

/-- Concrete instance of claim C4's round-trip at an explicit record. -/
theorem changeRecord_roundtrip_witness :
    (5 : Nat) < 2 ^ 64 ∧ validHash "00deadbeef123abc" ∧ tsValid 1700000000 = true ∧
      read_from_meta (serializeChars ⟨5, "00deadbeef123abc", 1700000000⟩)
        = Except.ok ⟨5, "00deadbeef123abc", 1700000000⟩ :=
  ⟨by norm_num, ⟨by decide, by decide⟩, by decide,
    changeRecord_roundtrip ⟨5, "00deadbeef123abc", 1700000000⟩ (by norm_num)
      ⟨by decide, by decide⟩ (by decide)⟩

theorem fileInfoEq_iff (a b : FileInfo) :
    fileInfoEq a b = true ↔ a.size = b.size ∧ a.hash = b.hash := by
  simp [fileInfoEq, Bool.and_eq_true]

/-- Claim C5: the `PartialEq` comparison of two Change Records holds exactly
when both `size` and `hash` agree, and replacing the `captured_at`
timestamps of either record does not change the comparison. -/
theorem unchanged_iff_size_hash (a b : FileInfo) :
    (fileInfoEq a b = true ↔ a.size = b.size ∧ a.hash = b.hash) ∧
    (∀ t t' : Int, fileInfoEq { a with time_stamp := t } { b with time_stamp := t' }
      = fileInfoEq a b) := by
  constructor
  · exact fileInfoEq_iff a b
  · intro t t'; rfl

/-- Claim C3: for every processed regular file, the freshly captured record
is written to the new checkpoint's sidecar path unconditionally, and the
file content is copied if and only if no prior record exists at the
corresponding sidecar path or the prior record differs from the current one
in size or hash. -/
theorem dealing_with_file_spec (last : Option FileInfo) (current : FileInfo) :
    (dealing_with_file last current).sidecarRecord = current ∧
    ((dealing_with_file last current).copied = true ↔
      last = none ∨ ∃ l, last = some l ∧ (l.size ≠ current.size ∨ l.hash ≠ current.hash)) := by
  refine ⟨rfl, ?_⟩
  cases last with
  | none => simp [dealing_with_file]
  | some l =>
    simp only [dealing_with_file]
    by_cases h : fileInfoEq l current = true
    · have := (fileInfoEq_iff l current).mp h
      simp [h, this.1, this.2]
    · have hne := h
      rw [(fileInfoEq_iff l current).not] at hne
      push_neg at hne
      simp only [Bool.not_eq_true] at h
      simp only [h, Bool.cond_false]
      constructor
      · intro _
        refine Or.inr ⟨l, rfl, ?_⟩
        by_cases hs : l.size = current.size
        · exact Or.inr (hne hs)
        · exact Or.inl hs
      · intro _; rfl

/-- Claim C10: deserialization of a Change Record succeeds on any contents
whose first line parses as a `u64` and whose third line parses as a
chrono-accepted epoch timestamp; the second line is taken as the hash with
no validation at all, and every line after the third is ignored. -/
theorem read_from_meta_lenient (contents l1 l2 l3 : List Char) (n : Nat) (ts : Int)
    (h1 : (rustLines contents).get? 0 = some l1) (h2 : parseU64 l1 = some n)
    (h3 : (rustLines contents).get? 1 = some l2)
    (h4 : (rustLines contents).get? 2 = some l3) (h5 : parseI64 l3 = some ts)
    (h6 : tsValid ts = true) :
    read_from_meta contents = Except.ok ⟨n, String.mk l2, ts⟩ := by
  simp only [read_from_meta, h1, h2, h3, h4, h5, h6, if_pos]

/-- Concrete instance of claim C10: a five-line input whose second line is
not remotely a hexadecimal hash is still deserialized successfully. -/
theorem read_from_meta_lenient_witness :
    read_from_meta "5\nnot a hex hash!\n7\nextra\nlines".data
      = Except.ok ⟨5, "not a hex hash!", 7⟩ :=
  read_from_meta_lenient _ "5".data "not a hex hash!".data "7".data 5 7
    rfl rfl rfl rfl rfl rfl

/-- Claim C9: resolving the latest-checkpoint pointer never fails: every
read outcome produces an `Ok` value, a failed read of the pointer file is
mapped to "no prior checkpoint", and so is an empty or whitespace-only
pointer file. -/
theorem read_last_checkpoint_total :
    (∀ r, ∃ v, read_last_checkpoint r = .ok v) ∧
    (∀ e, read_last_checkpoint (.error e) = .ok none) ∧
    (∀ s, rustTrim s = "" → read_last_checkpoint (.ok s) = .ok none) := by
  refine ⟨?_, ?_, ?_⟩
  · intro r
    simp only [read_last_checkpoint]
    split
    · exact ⟨none, rfl⟩
    · exact ⟨_, rfl⟩
  · intro e; rfl
  · intro s h
    simp only [read_last_checkpoint, h]
    rfl

/-- Concrete instances of claim C9: a whitespace-only pointer file and a
failed pointer read both resolve to "no prior checkpoint". -/
theorem read_last_checkpoint_total_witness :
    read_last_checkpoint (.ok "  \n\t ") = .ok none ∧
    read_last_checkpoint (.error ()) = .ok none :=
  ⟨read_last_checkpoint_total.2.2 "  \n\t " (by decide),
    read_last_checkpoint_total.2.1 ()⟩

/-- Claim C1 as stated fails on the code: a run whose tree-diff walk fails
still overwrites the pointer file, because `backup` discards
`traverse_backup`'s result (`let _ = traverse_backup(...)`,
src/main.rs:102).  Here staging, archival and cleanup all succeed while the
walk fails, and the pointer is still written. -/
theorem pointer_written_despite_walk_failure :
    pointerWritten ⟨true, true, false, true, true, true⟩ = true ∧
    (⟨true, true, false, true, true, true⟩ : RunEnv).walkOk = false :=
  ⟨rfl, rfl⟩

/-- Claim C1 (amended): the pointer file is overwritten exactly when the
staging step (required only when a prior checkpoint exists), the
metadata-archival step, and the staging-cleanup step (required only when a
prior checkpoint exists and the immediate-removal policy is set) all
succeed; the tree-diff walk's outcome plays no role in the gating. -/
theorem pointer_write_gating (e : RunEnv) :
    pointerWritten e
      = ((!e.hasPrior || e.stageOk) && e.compressOk
          && (!(e.hasPrior && e.removeTempImmediately) || e.cleanupOk)) := by
  rcases e with ⟨hp, st, w, co, cl, r⟩
  cases hp <;> cases st <;> cases w <;> cases co <;> cases cl <;> cases r <;> rfl

/-! ## Helper lemmas: archive extraction -/

theorem orO_none_right (a : Option (List Char)) : orO a none = a := by
  cases a <;> rfl

theorem orO_assoc (a b c : Option (List Char)) : orO (orO a b) c = orO a (orO b c) := by
  cases a <;> rfl

theorem findFile_cons (p : String × List Char) (ps : List (String × List Char)) (name : String) :
    findFile (p :: ps) name = if p.1 == name then some p.2 else findFile ps name := by
  by_cases h : (p.1 == name) = true
  · simp [findFile, List.find?, h]
  · have hb : (p.1 == name) = false := by simpa using h
    simp [findFile, List.find?, hb]

theorem findFile_append (fs gs : List (String × List Char)) (name : String) :
    findFile (fs ++ gs) name = orO (findFile fs name) (findFile gs name) := by
  induction fs with
  | nil => rfl
  | cons p ps ih =>
    rw [List.cons_append, findFile_cons, findFile_cons]
    by_cases h : (p.1 == name) = true
    · simp [h, orO]
    · simp [h, ih]

theorem findFile_some_of_any (fs : List (String × List Char)) (name : String)
    (h : fs.any (fun p => p.1 == name) = true) : ∃ c, findFile fs name = some c := by
  obtain ⟨p, hp, he⟩ := List.any_eq_true.mp h
  have hs : (fs.find? (fun p => p.1 == name)).isSome := List.find?_isSome.mpr ⟨p, hp, he⟩
  obtain ⟨q, hq⟩ := Option.isSome_iff_exists.mp hs
  exact ⟨q.2, by simp [findFile, hq]⟩

theorem extractFold_lookup (ms : List (String × List Char)) :
    ∀ fs name, findFile (ms.foldl extractStep fs) name
      = orO (findFile fs name) (specFirstEligible ms name) := by
  induction ms with
  | nil =>
    intro fs name
    simp only [List.foldl_nil, specFirstEligible, List.find?_nil, Option.map_none']
    exact (orO_none_right _).symm
  | cons m rest ih =>
    intro fs name
    rw [List.foldl_cons]
    by_cases hel : endsWithMeta m.1 = true
    · by_cases hany : fs.any (fun p => p.1 == m.1) = true
      · have hstep : extractStep fs m = fs := by
          simp [extractStep, hel, hany]
        rw [hstep, ih fs name]
        by_cases hn : (m.1 == name) = true
        · have hname : m.1 = name := eq_of_beq hn
          obtain ⟨c, hc⟩ := findFile_some_of_any fs name (hname ▸ hany)
          rw [hc]
          rfl
        · have : specFirstEligible (m :: rest) name = specFirstEligible rest name := by
            simp only [specFirstEligible]
            rw [List.find?_cons_of_neg _ (by simp [hn])]
          rw [this]
      · have hstep : extractStep fs m = fs ++ [m] := by
          simp [extractStep, hel, hany]
        rw [hstep, ih (fs ++ [m]) name, findFile_append, orO_assoc]
        congr 1
        by_cases hn : (m.1 == name) = true
        · simp only [specFirstEligible]
          rw [List.find?_cons_of_pos _ (by simp [hn, hel])]
          rw [findFile_cons, if_pos hn]
          rfl
        · simp only [specFirstEligible]
          rw [List.find?_cons_of_neg _ (by simp [hn])]
          rw [findFile_cons, if_neg hn]
          rfl
    · have hstep : extractStep fs m = fs := by
        simp only [Bool.not_eq_true] at hel
        simp [extractStep, hel]
      have hskip : specFirstEligible (m :: rest) name = specFirstEligible rest name := by
        simp only [Bool.not_eq_true] at hel
        simp only [specFirstEligible]
        rw [List.find?_cons_of_neg _ (by simp [hel])]
      rw [hstep, ih fs name, hskip]

/-- Claim C6: `unfold` on a directory with no archive file is a no-op (not
an error); otherwise it deletes the archive after processing and the loose
files afterwards are exactly: every file that was already present, with its
original bytes (never overwritten), plus, for each name not already
present, the first archive member of that name carrying the `.meta`
extension — members without the metadata extension are skipped. -/
theorem extract_zip_spec (d : DirState) :
    (d.archive = none → extract_zip d true = d) ∧
    (∀ ms, d.archive = some ms →
      (extract_zip d true).archive = none ∧
      ∀ name, findFile (extract_zip d true).files name
        = orO (findFile d.files name) (specFirstEligible ms name)) := by
  obtain ⟨fs, arch⟩ := d
  constructor
  · intro h
    cases arch with
    | none => rfl
    | some ms => exact absurd h (by simp)
  · intro ms h
    cases arch with
    | none => exact absurd h (by simp)
    | some ms' =>
      have hms : ms' = ms := by injection h
      subst hms
      exact ⟨rfl, fun name => extractFold_lookup _ fs name⟩

/-- Concrete instances of claim C6: a directory without an archive is
untouched, and extraction deletes the archive file. -/
theorem extract_zip_spec_witness :
    extract_zip ⟨[("keep.txt", ['k'])], none⟩ true = ⟨[("keep.txt", ['k'])], none⟩ ∧
    (extract_zip ⟨[("old.meta", ['o'])],
      some [("a.meta", ['1']), ("x.txt", ['2']), ("old.meta", ['9'])]⟩ true).archive = none :=
  ⟨(extract_zip_spec _).1 rfl, ((extract_zip_spec _).2 _ rfl).1⟩

/-! ## Helper lemmas: extensions and suffixes -/

theorem listIsSuffix_append (x : List Char) : ∀ s, listIsSuffix (s ++ x) x = true := by
  intro s
  induction s with
  | nil =>
    show listIsSuffix x x = true
    unfold listIsSuffix
    rw [if_pos (beq_self_eq_true x)]
  | cons c s' ih =>
    rw [List.cons_append]
    unfold listIsSuffix
    by_cases h : ((c :: (s' ++ x)) == x) = true
    · rw [if_pos h]
    · rw [if_neg h]
      exact ih

theorem splitAtLastDot_eq (cs : List Char) :
    ∀ s e, splitAtLastDot cs = some (s, e) → cs = s ++ '.' :: e := by
  induction cs with
  | nil => intro s e h; simp [splitAtLastDot] at h
  | cons c rest ih =>
    intro s e h
    unfold splitAtLastDot at h
    cases hr : splitAtLastDot rest with
    | some pe =>
      obtain ⟨s1, e1⟩ := pe
      rw [hr] at h
      simp only [Option.some.injEq, Prod.mk.injEq] at h
      obtain ⟨hs, he⟩ := h
      subst hs; subst he
      rw [List.cons_append]
      exact congrArg (c :: ·) (ih s1 e1 hr)
    | none =>
      rw [hr] at h
      by_cases hc : c = '.'
      · rw [if_pos hc] at h
        simp only [Option.some.injEq, Prod.mk.injEq] at h
        obtain ⟨hs, he⟩ := h
        subst hs; subst he
        rw [hc]
        rfl
      · rw [if_neg hc] at h
        cases h

theorem rustExtension_inv (n : String) (ext : String) (h : rustExtension n = some ext) :
    ∃ s, s.isEmpty = false ∧ n.data = s ++ '.' :: ext.data := by
  unfold rustExtension at h
  split at h
  · rename_i s e heq
    split at h
    · cases h
    · rename_i hs
      refine ⟨s, by simpa using hs, ?_⟩
      have he : String.mk e = ext := by injection h
      have hdata : n.data = s ++ '.' :: e := splitAtLastDot_eq n.data s e heq
      rw [hdata, ← he]
  · cases h

theorem endsWithMeta_of_isMetaExt (n : String) (h : isMetaExt n = true) :
    endsWithMeta n = true := by
  have hre : rustExtension n = some "meta" := by
    unfold isMetaExt at h
    split at h
    · rename_i e heq
      rw [heq, eq_of_beq h]
    · cases h
  obtain ⟨s, hs, hdata⟩ := rustExtension_inv n "meta" hre
  unfold endsWithMeta
  rw [hdata, show ('.' :: "meta".data : List Char) = ".meta".data from rfl]
  exact listIsSuffix_append ".meta".data s

/-! ## Helper lemmas: extracting a well-formed archive in full -/

theorem extractFold_all (ms : List (String × List Char)) :
    ∀ fs, (∀ m ∈ ms, endsWithMeta m.1 = true) →
      (∀ m ∈ ms, ∀ p ∈ fs, p.1 ≠ m.1) →
      (ms.map Prod.fst).Nodup →
      ms.foldl extractStep fs = fs ++ ms := by
  induction ms with
  | nil => intro fs _ _ _; simp
  | cons m rest ih =>
    intro fs h1 h2 h3
    rw [List.foldl_cons]
    have hel : endsWithMeta m.1 = true := h1 m (List.mem_cons_self _ _)
    have hany : fs.any (fun p => p.1 == m.1) = false := by
      apply List.any_eq_false.mpr
      intro p hp
      exact fun hbe => (h2 m (List.mem_cons_self _ _) p hp) (eq_of_beq hbe)
    have hstep : extractStep fs m = fs ++ [m] := by
      simp [extractStep, hel, hany]
    have hrest1 : ∀ m' ∈ rest, endsWithMeta m'.1 = true :=
      fun m' hm => h1 m' (List.mem_cons_of_mem _ hm)
    have hnodup : (rest.map Prod.fst).Nodup := by
      simp only [List.map_cons, List.nodup_cons] at h3
      exact h3.2
    have hnotin : m.1 ∉ rest.map Prod.fst := by
      simp only [List.map_cons, List.nodup_cons] at h3
      exact h3.1
    have hrest2 : ∀ m' ∈ rest, ∀ p ∈ fs ++ [m], p.1 ≠ m'.1 := by
      intro m' hm p hp
      rcases List.mem_append.mp hp with hfs | hm2
      · exact h2 m' (List.mem_cons_of_mem _ hm) p hfs
      · have hpm : p = m := by simpa using hm2
        subst hpm
        intro hx
        exact hnotin (hx ▸ List.mem_map_of_mem Prod.fst hm)
    rw [hstep, ih (fs ++ [m]) hrest1 hrest2 hnodup, List.append_assoc]
    rfl

/-- Claim C8 as stated fails on the code: in a directory whose archive's
member set consists solely of metadata sidecars (here the single member
`x.meta`), a pre-existing loose sidecar of the same name is not overwritten
by `unfold`, so the following `fold` archives the loose bytes `'1'` instead
of the original member bytes `'2'` — the archive is not restored
byte-for-byte. -/
theorem fold_unfold_not_restoring :
    (∀ m ∈ [(("x.meta" : String), ['2'])], endsWithMeta m.1 = true) ∧
    compress_process (extract_zip ⟨[("x.meta", ['1'])], some [("x.meta", ['2'])]⟩ true)
      = ⟨[], some [("x.meta", ['1'])]⟩ ∧
    (['1'] : List Char) ≠ ['2'] := by
  refine ⟨?_, rfl, by decide⟩
  intro m hm
  have hm' : m = (("x.meta" : String), (['2'] : List Char)) := by simpa using hm
  subst hm'
  decide

/-- Claim C8 (amended): `fold(unfold(D)) = D` for every directory `D` whose
archive is present with a nonempty member list, all member names distinct
and each carrying the `meta` extension proper (nonempty stem), provided the
directory's loose files include no metadata sidecars of their own. -/
theorem fold_unfold_roundtrip (d : DirState) (ms : List (String × List Char))
    (h1 : d.archive = some ms) (h2 : ms ≠ [])
    (h3 : ∀ m ∈ ms, isMetaExt m.1 = true)
    (h4 : (ms.map Prod.fst).Nodup)
    (h5 : ∀ p ∈ d.files, isMetaExt p.1 = false) :
    compress_process (extract_zip d true) = d := by
  obtain ⟨fs, arch⟩ := d
  have h1' : arch = some ms := h1
  subst h1'
  have h5' : ∀ p ∈ fs, isMetaExt p.1 = false := h5
  have hext : extract_zip ⟨fs, some ms⟩ true = ⟨fs ++ ms, none⟩ := by
    show (⟨ms.foldl extractStep fs, none⟩ : DirState) = ⟨fs ++ ms, none⟩
    have := extractFold_all ms fs
      (fun m hm => endsWithMeta_of_isMetaExt _ (h3 m hm))
      (fun m hm p hp hx => by
        have hpm : isMetaExt p.1 = false := h5' p hp
        rw [hx, h3 m hm] at hpm
        cases hpm)
      h4
    rw [this]
  rw [hext]
  have hfilter1 : (fs ++ ms).filter (fun p => isMetaExt p.1) = ms := by
    rw [List.filter_append]
    rw [List.filter_eq_nil_iff.mpr (fun p hp => by simp [h5' p hp])]
    rw [List.filter_eq_self.mpr (fun m hm => h3 m hm)]
    rfl
  have hfilter2 : (fs ++ ms).filter (fun p => !isMetaExt p.1) = fs := by
    rw [List.filter_append]
    rw [List.filter_eq_self.mpr (fun p hp => by simp [h5' p hp])]
    rw [List.filter_eq_nil_iff.mpr (fun m hm => by simp [h3 m hm])]
    simp
  simp only [compress_process, hfilter1, hfilter2]
  rw [if_neg (fun hc : ms.isEmpty = true => h2 (List.isEmpty_iff.mp hc))]

/-- Concrete instance of claim C8's amended round-trip: a directory with
one unrelated loose file and an archive of two distinct sidecars is
restored exactly by `fold` after `unfold`. -/
theorem fold_unfold_roundtrip_witness :
    compress_process (extract_zip ⟨[("doc.txt", ['d'])],
      some [("a.meta", ['1']), ("b.meta", ['2'])]⟩ true)
      = ⟨[("doc.txt", ['d'])], some [("a.meta", ['1']), ("b.meta", ['2'])]⟩ :=
  fold_unfold_roundtrip _ _ rfl (by simp) (by decide) (by decide) (by decide)

/-- Claim C7 as stated fails on the code: `compress_dir` and `extract_dir`
iterate `WalkDir` over every directory with no ignore filtering at all
(src/zip_handler.rs:11-33 never consults the configured ignore list), so a
walk consisting of a single ignored directory holding a sidecar is still
folded — its state changes, where the claim requires it untouched. -/
theorem fold_tree_processes_ignored :
    (∀ d ∈ [({ state := ⟨[("a.meta", ['1'])], none⟩, ignored := true } : WalkedDir)],
      d.ignored = true) ∧
    compress_dir [{ state := ⟨[("a.meta", ['1'])], none⟩, ignored := true }]
      ≠ [{ state := ⟨[("a.meta", ['1'])], none⟩, ignored := true }] := by
  constructor
  · intro d hd
    have hd' : d = { state := ⟨[("a.meta", ['1'])], none⟩, ignored := true } := by
      simpa using hd
    subst hd'
    rfl
  · decide

/-- Claim C7 (amended): `fold_tree` and `unfold_tree` apply fold
(respectively unfold) to every directory yielded by the walk — the root and
every subdirectory — including those matching a configured ignore pattern;
the ignore flag is not consulted. -/
theorem fold_tree_processes_all (walk : List WalkedDir) (d : WalkedDir) (h : d ∈ walk) :
    ({ state := compress_process d.state, ignored := d.ignored } : WalkedDir)
        ∈ compress_dir walk ∧
    ({ state := extract_zip d.state true, ignored := d.ignored } : WalkedDir)
        ∈ extract_dir walk ∧
    (compress_dir walk).length = walk.length ∧
    (extract_dir walk).length = walk.length := by
  refine ⟨?_, ?_, List.length_map _ _, List.length_map _ _⟩
  · exact List.mem_map_of_mem
      (fun d : WalkedDir => { d with state := compress_process d.state }) h
  · exact List.mem_map_of_mem
      (fun d : WalkedDir => { d with state := extract_zip d.state true }) h

/-- Concrete instance of claim C7's amended statement: the ignored
directory of the counterexample walk is folded. -/
theorem fold_tree_processes_all_witness :
    ({ state := compress_process ⟨[("a.meta", ['1'])], none⟩, ignored := true } : WalkedDir)
      ∈ compress_dir [{ state := ⟨[("a.meta", ['1'])], none⟩, ignored := true }] :=
  (fold_tree_processes_all
    [{ state := ⟨[("a.meta", ['1'])], none⟩, ignored := true }]
    { state := ⟨[("a.meta", ['1'])], none⟩, ignored := true }
    (List.mem_singleton.mpr rfl)).1

/-- Claim C2 fails on the code (code bug): `dealing_with_file` computes the
sidecar path with `with_extension("meta")` (src/backup_utils.rs:120), which
replaces the source file's own extension instead of appending, so two
distinct files of one directory whose names differ only in extension map
to the same sidecar path; the record written second truncates the first
(`File::create`), leaving exactly one metadata entry for two tracked
files.  The spec's invariant of one entry per tracked file is violated. -/
theorem sidecar_collision_bug :
    metaPathOf "a.txt" = "a.meta" ∧
    metaPathOf "a.bin" = "a.meta" ∧
    ("a.txt" : String) ≠ "a.bin" ∧
    writeSidecars [("a.txt", ⟨5, "aaaa", 0⟩), ("a.bin", ⟨6, "bbbb", 0⟩)]
      = [("a.meta", ⟨6, "bbbb", 0⟩)] :=
  ⟨by decide, by decide, by decide, by decide⟩
